import Mathlib

/-!
# sqsjanitor: list view, list controller and queue-detail worker pool

A shallow embedding of `sqsjanitor/ui.go` and `sqsjanitor/sqs.go`.

* Go `int` is modelled as `Int` restricted to the 64-bit two's-complement range;
  every `+ 1` / `- 1` of the source goes through `wrapInt`.
* A Go panic (index out of range, nil dereference) is an `Except.error`.
* A channel the code only sends on (`queueURLs` of the controller) is the list of
  the values sent so far.
* The worker pool of `GetQueueDetails` is a transition system over goroutine
  program counters and channel contents; `poolNext` lists every successor of a
  state, one per scheduling choice.
-/

namespace Sqsjanitor

/-! ## Go integers -/

/-- Smallest value of the Go type `int` (64-bit targets). -/
def minInt : Int := -9223372036854775808

/-- Largest value of the Go type `int` (64-bit targets). -/
def maxInt : Int := 9223372036854775807

/-- Two's-complement wrap-around of an exact integer result into `int`. -/
def wrapInt (x : Int) : Int := (x + 9223372036854775808) % 18446744073709551616 - 9223372036854775808

/-- The value is representable in the Go type `int`. -/
def IsInt (x : Int) : Prop := minInt ≤ x ∧ x ≤ maxInt

instance (x : Int) : Decidable (IsInt x) := by unfold IsInt; infer_instance

/-! ## Data model (`sqs.go`, `ui.go`) -/

/-- The struct `QueueDetails` of `sqs.go`. -/
structure QueueDetails where
  QueueURL : String
  MessageCount : Int
deriving DecidableEq, Repr

/-- The type `QueueListModel` of `ui.go`: a slice of (non-nil) `QueueDetails`. -/
abbrev QueueListModel := List QueueDetails

/-- A Go slice has a length representable in `int`. -/
def GoSlice {α : Type} (xs : List α) : Prop := (xs.length : Int) ≤ maxInt

instance {α : Type} (xs : List α) : Decidable (GoSlice xs) := by unfold GoSlice; infer_instance

/-- The struct `QueueListView` of `ui.go`. -/
structure QueueListView where
  cursorPosition : Int
  rows : Int
  columns : Int
  contents : String
deriving DecidableEq, Repr

/-- Every integer field of the view holds a Go `int`. -/
def QueueListView.WellTyped (v : QueueListView) : Prop :=
  IsInt v.cursorPosition ∧ IsInt v.rows ∧ IsInt v.columns

instance (v : QueueListView) : Decidable v.WellTyped := by
  unfold QueueListView.WellTyped; infer_instance

/-- The value `errors.New("invalid position")` together with the other errors of the package. -/
abbrev GoError := String

/-- Library model of `utf8.RuneCountInString`: a `String` is a sequence of Unicode scalar
values, each of which is one rune. -/
def RuneCountInString (s : String) : Int := (s.length : Int)

/-- Go slice indexing `xs[i]`: panics (here `none`) unless `0 ≤ i < len(xs)`. -/
def sliceIndex {α : Type} (xs : List α) (i : Int) : Option α :=
  if 0 ≤ i ∧ i < (xs.length : Int) then xs[i.toNat]? else none

/-! ## `QueueListView` -/

/-- `NewQueueListView`: `&QueueListView{1, 0, 0, ""}`. -/
def NewQueueListView : QueueListView := ⟨1, 0, 0, ""⟩

/-- `MoveCursorUp`: the view after the call and the returned error (`none` is `nil`). -/
def MoveCursorUp (v : QueueListView) : QueueListView × Option GoError :=
  if wrapInt (v.cursorPosition - 1) ≤ 0 then
    (v, some "invalid position")
  else
    (⟨wrapInt (v.cursorPosition - 1), v.rows, v.columns, v.contents⟩, none)

/-- `MoveCursorDown`: the view after the call and the returned error (`none` is `nil`). -/
def MoveCursorDown (v : QueueListView) : QueueListView × Option GoError :=
  if v.cursorPosition ≥ v.rows then
    (v, some "invalid position")
  else
    (⟨wrapInt (v.cursorPosition + 1), v.rows, v.columns, v.contents⟩, none)

/-- One iteration of the first loop of `UpdateQueues`. -/
def columnsStep (columns : Int) (queue : QueueDetails) : Int :=
  if RuneCountInString queue.QueueURL > columns then RuneCountInString queue.QueueURL else columns

/-- The line `fmt.Sprintf("- url=%s; messageCount=%d\n", queue.QueueURL, queue.MessageCount)`. -/
def renderLine (queue : QueueDetails) : String :=
  "- url=" ++ queue.QueueURL ++ "; messageCount=" ++ toString queue.MessageCount ++ "\n"

/-- One iteration of the second loop of `UpdateQueues`. -/
def contentsStep (contents : String) (queue : QueueDetails) : String :=
  contents ++ renderLine queue

/-- `UpdateQueues`: `rows`, `columns` and `contents` are recomputed, the cursor is kept. -/
def UpdateQueues (v : QueueListView) (queues : QueueListModel) : QueueListView :=
  ⟨v.cursorPosition, (queues.length : Int), queues.foldl columnsStep 0, queues.foldl contentsStep ""⟩

/-- A call on a view: the three methods that mutate it. -/
inductive ViewCall where
  | updateQueues (queues : QueueListModel)
  | moveCursorUp
  | moveCursorDown
deriving DecidableEq, Repr

/-- The view after one call (a returned error is dropped, the view is what matters). -/
def applyCall (v : QueueListView) : ViewCall → QueueListView
  | .updateQueues queues => UpdateQueues v queues
  | .moveCursorUp => (MoveCursorUp v).1
  | .moveCursorDown => (MoveCursorDown v).1

/-- The view after a finite sequence of calls, starting from `v`. -/
def runCalls (v : QueueListView) (calls : List ViewCall) : QueueListView :=
  calls.foldl applyCall v

/-- Every model passed to `UpdateQueues` in the sequence is a Go slice. -/
def callsWellTyped : List ViewCall → Prop
  | [] => True
  | .updateQueues queues :: rest => GoSlice queues ∧ callsWellTyped rest
  | _ :: rest => callsWellTyped rest

/-- Every `UpdateQueues` of the sequence receives a model that is empty or has at least as
many entries as the cursor position at the time of the call. -/
def updatesCoverCursor (v : QueueListView) : List ViewCall → Prop
  | [] => True
  | .updateQueues queues :: rest =>
      (queues.length = 0 ∨ v.cursorPosition ≤ (queues.length : Int)) ∧
        updatesCoverCursor (UpdateQueues v queues) rest
  | .moveCursorUp :: rest => updatesCoverCursor (MoveCursorUp v).1 rest
  | .moveCursorDown :: rest => updatesCoverCursor (MoveCursorDown v).1 rest

/-! ## `QueueListController` -/

/-- The keys `Edit` distinguishes (`gocui.Key`). -/
inductive Key where
  | KeyEnter
  | KeyArrowUp
  | KeyArrowDown
  | other (code : Nat)
deriving DecidableEq, Repr

/-- The part of `gocui.View` that `Edit` touches: the `MoveCursor(dx, dy, _)` calls made. -/
structure GocuiView where
  cursorMoves : List (Int × Int)
deriving DecidableEq, Repr

/-- The struct `QueueListController`; `queueURLs` holds the identifiers sent so far on the
send-only channel, oldest first. -/
structure QueueListController where
  queues : QueueListModel
  view : QueueListView
  queueURLs : List String
  active : Bool
deriving DecidableEq, Repr

/-- `NewQueueListController`: a fresh view, updated once with the model. -/
def NewQueueListController (queues : QueueListModel) (queueURLs : List String) :
    QueueListController :=
  ⟨queues, UpdateQueues NewQueueListView queues, queueURLs, true⟩

/-- `GetCurrentSelection`: `(*ctrl.queues)[ctrl.view.cursorPosition-1]`, `none` on a panic. -/
def GetCurrentSelection (ctrl : QueueListController) : Option QueueDetails :=
  sliceIndex ctrl.queues (wrapInt (ctrl.view.cursorPosition - 1))

/-- `Edit`: the controller and the gocui view after the key, or the panic of the index
expression. -/
def Edit (ctrl : QueueListController) (v : GocuiView) (key : Key) :
    Except GoError (QueueListController × GocuiView) :=
  match key with
  | .KeyEnter =>
    match GetCurrentSelection ctrl with
    | none => .error "index out of range"
    | some details =>
      .ok (⟨ctrl.queues, ctrl.view, ctrl.queueURLs ++ [details.QueueURL], ctrl.active⟩, v)
  | .KeyArrowUp =>
    match MoveCursorUp ctrl.view with
    | (view, none) => .ok (⟨ctrl.queues, view, ctrl.queueURLs, ctrl.active⟩, ⟨v.cursorMoves ++ [(0, -1)]⟩)
    | (view, some _) => .ok (⟨ctrl.queues, view, ctrl.queueURLs, ctrl.active⟩, v)
  | .KeyArrowDown =>
    match MoveCursorDown ctrl.view with
    | (view, none) => .ok (⟨ctrl.queues, view, ctrl.queueURLs, ctrl.active⟩, ⟨v.cursorMoves ++ [(0, 1)]⟩)
    | (view, some _) => .ok (⟨ctrl.queues, view, ctrl.queueURLs, ctrl.active⟩, v)
  | .other _ => .ok (ctrl, v)

/-- A finite sequence of key events handled by `Edit`, stopping at the first panic. -/
def editAll (ctrl : QueueListController) (v : GocuiView) :
    List Key → Except GoError (QueueListController × GocuiView)
  | [] => .ok (ctrl, v)
  | key :: rest =>
    match Edit ctrl v key with
    | .error e => .error e
    | .ok (ctrl1, v1) => editAll ctrl1 v1 rest

/-- `n` consecutive `MoveCursorDown` calls on the controller's view: the controller after
them and the errors returned, in call order. -/
def moveDownTimes : Nat → QueueListController → QueueListController × List (Option GoError)
  | 0, ctrl => (ctrl, [])
  | n + 1, ctrl =>
    let r := MoveCursorDown ctrl.view
    let rest := moveDownTimes n ⟨ctrl.queues, r.1, ctrl.queueURLs, ctrl.active⟩
    (rest.1, r.2 :: rest.2)

/-! ## `sqs.go`: the per-queue fetch -/

/-- The part of `sqs.GetQueueAttributesOutput` the worker reads: the attribute map, as an
association list from attribute name to value. -/
structure GetQueueAttributesOutput where
  Attributes : List (String × String)
deriving DecidableEq, Repr

/-- The remote service behind `client.GetQueueAttributes`: for each queue URL either an
error or a response. -/
abbrev RemoteClient := String → Except GoError GetQueueAttributesOutput

/-- `getQueueAttributes`: `(nil, err)` when the call fails, `(output, nil)` otherwise. -/
def getQueueAttributes (client : RemoteClient) (queueUrl : String) :
    Option GetQueueAttributesOutput × Option GoError :=
  match client queueUrl with
  | .error err => (none, some err)
  | .ok output => (some output, none)

/-- Value of a non-empty string of decimal digits, `none` otherwise. -/
def digitsValue : List Char → Option Nat
  | [] => none
  | cs => cs.foldl (fun acc c => acc.bind fun n => if c.isDigit then some (10 * n + (c.toNat - 48)) else none)
      (some 0)

/-- Library model of `strconv.Atoi`: an optional sign, then decimal digits, and the value
must fit in `int`. -/
def Atoi (s : String) : Except GoError Int :=
  let signed : Bool × List Char :=
    match s.data with
    | '-' :: rest => (true, rest)
    | '+' :: rest => (false, rest)
    | rest => (false, rest)
  match digitsValue signed.2 with
  | none => .error "strconv.Atoi: invalid syntax"
  | some n =>
    let x : Int := if signed.1 then -(n : Int) else (n : Int)
    if IsInt x then .ok x else .error "strconv.Atoi: value out of range"

/-- What one iteration of the worker loop does to the outside, in program order. -/
inductive WorkerAction where
  /-- The statement `errs <- err`. -/
  | sendErr (err : GoError)
  /-- The statement `outputs <- &QueueDetails{queueURL, numMessages}`. -/
  | sendOutput (details : QueueDetails)
  /-- The expression `output.Attributes` evaluated with `output == nil`: a panic. -/
  | nilDeref
deriving DecidableEq, Repr

/-- The body of the `for queueURL := range queueURLs` loop of `QueueAttributesWorker`.
After `errs <- err` control falls through to the attribute lookup. -/
def workerBody (client : RemoteClient) (queueURL : String) : List WorkerAction :=
  let r := getQueueAttributes client queueURL
  (match r.2 with
    | some err => [WorkerAction.sendErr err]
    | none => []) ++
  (match r.1 with
    | none => [WorkerAction.nilDeref]
    | some output =>
      match output.Attributes.lookup "ApproximateNumberOfMessages" with
      | none => [WorkerAction.sendErr "ApproximateNumberOfMessages"]
      | some numMessagesS =>
        match Atoi numMessagesS with
        | .error err => [WorkerAction.sendErr err]
        | .ok numMessages => [WorkerAction.sendOutput ⟨queueURL, numMessages⟩])

/-- What an observer of a worker's channels sees. -/
inductive WorkerEvent where
  | output (details : QueueDetails)
  | err (err : GoError)
  | done
  | panic
deriving DecidableEq, Repr

/-- The events of one loop body, and whether it ended in a panic. -/
def performBody : List WorkerAction → List WorkerEvent × Bool
  | [] => ([], false)
  | .sendErr err :: rest => ((WorkerEvent.err err) :: (performBody rest).1, (performBody rest).2)
  | .sendOutput details :: rest =>
    ((WorkerEvent.output details) :: (performBody rest).1, (performBody rest).2)
  | .nilDeref :: _ => ([WorkerEvent.panic], true)

/-- `QueueAttributesWorker` run on its own against channels whose other ends are always
ready: `queueURLs` delivers the given identifiers and is then closed, every send on
`outputs`, `errs` and `done` is accepted at once. The result is the trace of events. -/
def QueueAttributesWorker (client : RemoteClient) : List String → List WorkerEvent
  | [] => [WorkerEvent.done]
  | queueURL :: rest =>
    let r := performBody (workerBody client queueURL)
    if r.2 then r.1 else r.1 ++ QueueAttributesWorker client rest

/-! ## `sqs.go`: the worker pool of `GetQueueDetails` -/

/-- Program counter of one `QueueAttributesWorker` goroutine. -/
inductive WorkerPC where
  /-- At the head of `for queueURL := range queueURLs`. -/
  | recv
  /-- Inside the loop body, with these actions still to perform. -/
  | act (pending : List WorkerAction)
  /-- At `done <- true`. -/
  | signal
  /-- Returned. -/
  | exited
deriving DecidableEq, Repr

/-- Program counter of the goroutine running `GetQueueDetails`. -/
inductive MainPC where
  /-- Returned `nil, err` after `getQueueList` failed. -/
  | failed (err : GoError)
  /-- In the first loop, `i` workers started. -/
  | spawn (i : Nat)
  /-- In the second loop, these identifiers still to send; `close(queueURLs)` when empty. -/
  | feed (rest : List String)
  /-- In the third loop, `i` completion signals received. -/
  | await (i : Nat)
  /-- In the fourth loop, `i` results appended to `details`. -/
  | drain (i : Nat)
  /-- Returned `&details, nil`. -/
  | returned
deriving DecidableEq, Repr

/-- The inputs of one `GetQueueDetails` call: the outcome of `getQueueList`, the remote
attribute service and the argument `maxWorkers`. -/
structure PoolConfig where
  listQueues : Except GoError (List String)
  client : RemoteClient
  maxWorkers : Int

/-- The field `queues.QueueUrls`. -/
def PoolConfig.QueueUrls (cfg : PoolConfig) : List String :=
  match cfg.listQueues with
  | .ok urls => urls
  | .error _ => []

/-- The local `numQueues`. -/
def PoolConfig.numQueues (cfg : PoolConfig) : Nat := cfg.QueueUrls.length

/-- State of a running `GetQueueDetails` call. `queueURLs` and `outputs` are the buffers of
the two channels of capacity `numQueues`; `errs` and `done` are unbuffered and hold nothing. -/
structure Pool where
  main : MainPC
  queueURLs : List String
  closed : Bool
  outputs : List QueueDetails
  workers : List WorkerPC
  details : List QueueDetails
  crashed : Bool
deriving DecidableEq, Repr

/-- The state on entry, after `getQueueList` and the four `make` calls. -/
def poolInit (cfg : PoolConfig) : Pool :=
  match cfg.listQueues with
  | .error err => ⟨.failed err, [], false, [], [], [], false⟩
  | .ok _ => ⟨.spawn 0, [], false, [], [], [], false⟩

/-- Every way of singling out one element of a list: what precedes it, the element, what
follows it. -/
def picks {α : Type} : List α → List (List α × α × List α)
  | [] => []
  | x :: xs => ([], x, xs) :: (picks xs).map fun p => (x :: p.1, p.2.1, p.2.2)

/-- The steps the main goroutine can take. A receive from `done` pairs with one worker that
stands at `done <- true`. -/
def mainNext (cfg : PoolConfig) (s : Pool) : List Pool :=
  match s.main with
  | .failed _ => []
  | .spawn i =>
    if (i : Int) < cfg.maxWorkers then
      [⟨.spawn (i + 1), s.queueURLs, s.closed, s.outputs, s.workers ++ [WorkerPC.recv], s.details,
        s.crashed⟩]
    else
      [⟨.feed cfg.QueueUrls, s.queueURLs, s.closed, s.outputs, s.workers, s.details, s.crashed⟩]
  | .feed (queueURL :: rest) =>
    if s.queueURLs.length < cfg.numQueues then
      [⟨.feed rest, s.queueURLs ++ [queueURL], s.closed, s.outputs, s.workers, s.details,
        s.crashed⟩]
    else []
  | .feed [] => [⟨.await 0, s.queueURLs, true, s.outputs, s.workers, s.details, s.crashed⟩]
  | .await i =>
    if (i : Int) < cfg.maxWorkers then
      (picks s.workers).filterMap fun p =>
        if p.2.1 = WorkerPC.signal then
          some ⟨.await (i + 1), s.queueURLs, s.closed, s.outputs,
            p.1 ++ WorkerPC.exited :: p.2.2, s.details, s.crashed⟩
        else none
    else
      [⟨.drain 0, s.queueURLs, s.closed, s.outputs, s.workers, s.details, s.crashed⟩]
  | .drain i =>
    if i < cfg.numQueues then
      match s.outputs with
      | [] => []
      | details :: rest =>
        [⟨.drain (i + 1), s.queueURLs, s.closed, rest, s.workers, s.details ++ [details],
          s.crashed⟩]
    else
      [⟨.returned, s.queueURLs, s.closed, s.outputs, s.workers, s.details, s.crashed⟩]
  | .returned => []

/-- The step one worker can take on its own, given what precedes and follows it in the list
of workers. Nothing ever receives from `errs`, so `errs <- err` has no step; `done <- true`
has none here because it needs the main goroutine (see `mainNext`). -/
def workerNext (cfg : PoolConfig) (s : Pool) (pre : List WorkerPC) (w : WorkerPC)
    (post : List WorkerPC) : List Pool :=
  match w with
  | .recv =>
    match s.queueURLs with
    | queueURL :: rest =>
      [⟨s.main, rest, s.closed, s.outputs, pre ++ WorkerPC.act (workerBody cfg.client queueURL) :: post,
        s.details, s.crashed⟩]
    | [] =>
      if s.closed then
        [⟨s.main, [], s.closed, s.outputs, pre ++ WorkerPC.signal :: post, s.details, s.crashed⟩]
      else []
  | .act [] =>
    [⟨s.main, s.queueURLs, s.closed, s.outputs, pre ++ WorkerPC.recv :: post, s.details, s.crashed⟩]
  | .act (.sendErr _ :: _) => []
  | .act (.sendOutput details :: rest) =>
    if s.outputs.length < cfg.numQueues then
      [⟨s.main, s.queueURLs, s.closed, s.outputs ++ [details], pre ++ WorkerPC.act rest :: post,
        s.details, s.crashed⟩]
    else []
  | .act (.nilDeref :: _) =>
    [⟨s.main, s.queueURLs, s.closed, s.outputs, pre ++ w :: post, s.details, true⟩]
  | .signal => []
  | .exited => []

/-- Every successor of a state: one per goroutine that can run. A crashed process has none. -/
def poolNext (cfg : PoolConfig) (s : Pool) : List Pool :=
  if s.crashed then []
  else mainNext cfg s ++ (picks s.workers).flatMap fun p => workerNext cfg s p.1 p.2.1 p.2.2

/-- The states a `GetQueueDetails` call can be in, over all schedules. -/
inductive PoolReachable (cfg : PoolConfig) : Pool → Prop where
  | init : PoolReachable cfg (poolInit cfg)
  | step {s t : Pool} : PoolReachable cfg s → t ∈ poolNext cfg s → PoolReachable cfg t

/-- The call has returned to its caller (with a model or with an error). -/
def Pool.hasReturned (s : Pool) : Bool :=
  match s.main with
  | .returned => true
  | .failed _ => true
  | _ => false

/-- The schedule that always runs the first goroutine able to run, for at most `fuel` steps. -/
def runFirst (cfg : PoolConfig) : Nat → Pool → Pool
  | 0, s => s
  | fuel + 1, s =>
    match poolNext cfg s with
    | [] => s
    | t :: _ => runFirst cfg fuel t

/-! ## Invariants and specification-side definitions -/

/-- The part of the cursor invariant that every call keeps: the cursor and the row count
are Go integers and the cursor is at least 1. -/
def CursorLow (v : QueueListView) : Prop :=
  IsInt v.cursorPosition ∧ IsInt v.rows ∧ 1 ≤ v.cursorPosition

/-- The upper half of the cursor invariant. -/
def CursorHigh (v : QueueListView) : Prop := v.rows > 0 → v.cursorPosition ≤ v.rows

/-- The maximum identifier length of a model, written as the spec words it: the largest
rune count over the entries, 0 for no entries. -/
def maxIdentifierLength (queues : QueueListModel) : Int :=
  (queues.map fun q => RuneCountInString q.QueueURL).foldr max 0

/-- What `Edit` keeps true of a controller built from `queues`: the model is the one it was
built from, `rows` is its length and the cursor is on one of its rows. -/
def ControllerInv (queues : QueueListModel) (ctrl : QueueListController) : Prop :=
  ctrl.queues = queues ∧ ctrl.view.rows = (queues.length : Int) ∧
    1 ≤ ctrl.view.cursorPosition ∧ ctrl.view.cursorPosition ≤ ctrl.view.rows

/-- Number of `outputs <- ...` statements among the actions. -/
def countOutputs : List WorkerAction → Nat
  | [] => 0
  | .sendOutput _ :: rest => countOutputs rest + 1
  | _ :: rest => countOutputs rest

/-- Number of results a worker at this program counter will still push in the current
iteration. -/
def WorkerPC.pendingOutputs : WorkerPC → Nat
  | .act pending => countOutputs pending
  | _ => 0

/-- The identifiers the main goroutine has not yet put on the work queue. -/
def MainPC.unsent (cfg : PoolConfig) : MainPC → List String
  | .spawn _ => cfg.QueueUrls
  | .feed rest => rest
  | _ => []

/-- Number of results the fetch of these identifiers can ever push. -/
def expectedOutputs (cfg : PoolConfig) (urls : List String) : Nat :=
  (urls.map fun u => countOutputs (workerBody cfg.client u)).sum

/-- Results already collected or buffered, plus those the workers and the identifiers not
yet taken can still produce. -/
def potential (cfg : PoolConfig) (s : Pool) : Nat :=
  s.details.length + s.outputs.length + (s.workers.map WorkerPC.pendingOutputs).sum +
    expectedOutputs cfg (s.queueURLs ++ s.main.unsent cfg)

/-- Invariant of the worker pool: no result comes from nowhere, and `details` grows only in
the fourth loop, one entry per iteration. -/
def PoolInv (cfg : PoolConfig) (s : Pool) : Prop :=
  potential cfg s ≤ expectedOutputs cfg cfg.QueueUrls ∧
  match s.main with
  | .failed _ => ∃ err, cfg.listQueues = .error err
  | .drain i => s.details.length = i
  | .returned => cfg.numQueues ≤ s.details.length
  | _ => s.details = []

/-- No worker exists and nothing has been produced or collected. -/
def Pool.Idle (s : Pool) : Prop := s.workers = [] ∧ s.outputs = [] ∧ s.details = []

/-! ## Concrete inputs used below -/

/-- A three-queue model with identifiers of 5, 12 and 3 runes. -/
def sampleModel : QueueListModel :=
  [⟨"alpha", 4⟩, ⟨"abcdefghijkl", 0⟩, ⟨"xyz", 7⟩]

/-- A view whose cursor holds the smallest `int`. -/
def minCursorView : QueueListView := ⟨minInt, 3, 12, ""⟩

/-- A call sequence that moves the cursor to row 3 and then shrinks the model to one row. -/
def shrinkingCalls : List ViewCall :=
  [.updateQueues sampleModel, .moveCursorDown, .moveCursorDown, .updateQueues [⟨"alpha", 4⟩]]

/-- A call sequence whose updates never shrink the model below the cursor. -/
def coveringCalls : List ViewCall :=
  [.updateQueues sampleModel, .moveCursorDown, .moveCursorUp, .moveCursorUp, .updateQueues [⟨"alpha", 4⟩]]

/-- A remote service where queue `b` answers without the message-count attribute. -/
def missingAttributeClient : RemoteClient := fun queueUrl =>
  if queueUrl = "b" then .ok ⟨[("VisibilityTimeout", "30")]⟩
  else .ok ⟨[("ApproximateNumberOfMessages", "3")]⟩

/-- A remote service whose call fails for queue `a`. -/
def failingCallClient : RemoteClient := fun queueUrl =>
  if queueUrl = "a" then .error "RequestError: send request failed"
  else .ok ⟨[("ApproximateNumberOfMessages", "3")]⟩

/-- Two queues, two workers, queue `b` answers without the message-count attribute. -/
def missingAttributeConfig : PoolConfig := ⟨.ok ["a", "b"], missingAttributeClient, 2⟩

/-- Two queues whose fetches would both succeed, and no worker. -/
def zeroWorkersConfig : PoolConfig := ⟨.ok ["a", "c"], missingAttributeClient, 0⟩

/-- The state in which the main goroutine of `missingAttributeConfig` is left waiting. -/
def missingAttributeStuck : Pool :=
  ⟨.await 1, [], true, [⟨"a", 3⟩],
    [.act [.sendErr "ApproximateNumberOfMessages"], .exited], [], false⟩

/-- The state in which the main goroutine is left waiting when there is no worker. -/
def zeroWorkersStuck (urls : List String) : Pool := ⟨.drain 0, urls, true, [], [], [], false⟩

/-- Two queues whose fetches both succeed, and two workers. -/
def allSuccessConfig : PoolConfig := ⟨.ok ["a", "c"], missingAttributeClient, 2⟩

/-! ## Lemmas: Go integers -/

theorem wrapInt_of_isInt {x : Int} (h : IsInt x) : wrapInt x = x := by
  unfold IsInt minInt maxInt at h
  unfold wrapInt
  omega

theorem isInt_one : IsInt 1 := by unfold IsInt minInt maxInt; omega

theorem isInt_length {α : Type} {xs : List α} (h : GoSlice xs) : IsInt (xs.length : Int) := by
  unfold GoSlice maxInt at h
  unfold IsInt minInt maxInt
  omega

/-! ## Lemmas: the view -/

theorem MoveCursorUp_eq_of_gt {v : QueueListView} (hc : IsInt v.cursorPosition)
    (h : minInt < v.cursorPosition) :
    MoveCursorUp v =
      if v.cursorPosition - 1 ≤ 0 then (v, some "invalid position")
      else (⟨v.cursorPosition - 1, v.rows, v.columns, v.contents⟩, none) := by
  have hw : wrapInt (v.cursorPosition - 1) = v.cursorPosition - 1 := by
    apply wrapInt_of_isInt
    unfold IsInt minInt maxInt at *
    omega
  simp only [MoveCursorUp, hw]

theorem MoveCursorDown_eq {v : QueueListView} (hc : IsInt v.cursorPosition) (hr : IsInt v.rows) :
    MoveCursorDown v =
      if v.cursorPosition ≥ v.rows then (v, some "invalid position")
      else (⟨v.cursorPosition + 1, v.rows, v.columns, v.contents⟩, none) := by
  unfold MoveCursorDown
  by_cases hge : v.cursorPosition ≥ v.rows
  · simp only [hge, if_true]
  · have hw : wrapInt (v.cursorPosition + 1) = v.cursorPosition + 1 := by
      apply wrapInt_of_isInt
      unfold IsInt minInt maxInt at *
      omega
    simp only [hge, if_false, hw]

theorem cursorLow_new : CursorLow NewQueueListView := by
  unfold CursorLow NewQueueListView IsInt minInt maxInt
  simp

theorem cursorLow_update {v : QueueListView} (h : CursorLow v) {queues : QueueListModel}
    (hq : GoSlice queues) : CursorLow (UpdateQueues v queues) :=
  ⟨h.1, isInt_length hq, h.2.2⟩

theorem cursorLow_up {v : QueueListView} (h : CursorLow v) : CursorLow (MoveCursorUp v).1 := by
  obtain ⟨hc, hr, h1⟩ := h
  have hmin : minInt < v.cursorPosition := by unfold minInt; omega
  rw [MoveCursorUp_eq_of_gt hc hmin]
  unfold CursorLow
  split
  · exact ⟨hc, hr, h1⟩
  · unfold IsInt minInt maxInt at *
    simp only
    omega

theorem cursorLow_down {v : QueueListView} (h : CursorLow v) : CursorLow (MoveCursorDown v).1 := by
  obtain ⟨hc, hr, h1⟩ := h
  rw [MoveCursorDown_eq hc hr]
  unfold CursorLow
  split
  · exact ⟨hc, hr, h1⟩
  · unfold IsInt minInt maxInt at *
    simp only
    omega

theorem cursorLow_runCalls (calls : List ViewCall) :
    ∀ v : QueueListView, CursorLow v → callsWellTyped calls → CursorLow (runCalls v calls) := by
  induction calls with
  | nil => intro v h _; exact h
  | cons call rest ih =>
    intro v h hw
    cases call with
    | updateQueues queues =>
      exact ih _ (cursorLow_update h hw.1) hw.2
    | moveCursorUp => exact ih _ (cursorLow_up h) hw
    | moveCursorDown => exact ih _ (cursorLow_down h) hw

theorem cursorHigh_up {v : QueueListView} (hl : CursorLow v) (h : CursorHigh v) :
    CursorHigh (MoveCursorUp v).1 := by
  obtain ⟨hc, hr, h1⟩ := hl
  have hmin : minInt < v.cursorPosition := by unfold minInt; omega
  rw [MoveCursorUp_eq_of_gt hc hmin]
  unfold CursorHigh at *
  split
  · exact h
  · simp only
    intro hpos
    have := h hpos
    omega

theorem cursorHigh_down {v : QueueListView} (hl : CursorLow v) (h : CursorHigh v) :
    CursorHigh (MoveCursorDown v).1 := by
  obtain ⟨hc, hr, h1⟩ := hl
  rw [MoveCursorDown_eq hc hr]
  unfold CursorHigh at *
  split
  · exact h
  · simp only
    intro _
    omega

theorem cursorHigh_runCalls (calls : List ViewCall) :
    ∀ v : QueueListView, CursorLow v → CursorHigh v → callsWellTyped calls →
      updatesCoverCursor v calls → CursorHigh (runCalls v calls) := by
  induction calls with
  | nil => intro v _ h _ _; exact h
  | cons call rest ih =>
    intro v hl h hw hcov
    cases call with
    | updateQueues queues =>
      refine ih _ (cursorLow_update hl hw.1) ?_ hw.2 hcov.2
      have hcase := hcov.1
      show CursorHigh (UpdateQueues v queues)
      unfold CursorHigh UpdateQueues
      simp only
      intro hpos
      omega
    | moveCursorUp => exact ih _ (cursorLow_up hl) (cursorHigh_up hl h) hw hcov
    | moveCursorDown => exact ih _ (cursorLow_down hl) (cursorHigh_down hl h) hw hcov

theorem foldl_columnsStep_ge (queues : QueueListModel) :
    ∀ c : Int, c ≤ queues.foldl columnsStep c ∧
      ∀ q ∈ queues, RuneCountInString q.QueueURL ≤ queues.foldl columnsStep c := by
  induction queues with
  | nil => intro c; simp
  | cons q rest ih =>
    intro c
    have hstep : c ≤ columnsStep c q ∧ RuneCountInString q.QueueURL ≤ columnsStep c q := by
      unfold columnsStep
      split <;> omega
    obtain ⟨h1, h2⟩ := ih (columnsStep c q)
    refine ⟨le_trans hstep.1 h1, ?_⟩
    intro q' hq'
    rcases List.mem_cons.1 hq' with rfl | hmem
    · exact le_trans hstep.2 h1
    · exact h2 q' hmem

theorem foldl_columnsStep_attained (queues : QueueListModel) :
    ∀ c : Int, queues.foldl columnsStep c = c ∨
      ∃ q ∈ queues, queues.foldl columnsStep c = RuneCountInString q.QueueURL := by
  induction queues with
  | nil => intro c; simp
  | cons q rest ih =>
    intro c
    rcases ih (columnsStep c q) with h | ⟨q', hq', h⟩
    · by_cases hgt : RuneCountInString q.QueueURL > c
      · right
        refine ⟨q, List.mem_cons_self _ _, ?_⟩
        rw [List.foldl_cons, h]
        simp [columnsStep, hgt]
      · left
        rw [List.foldl_cons, h]
        simp [columnsStep, hgt]
    · right
      exact ⟨q', List.mem_cons_of_mem _ hq', by rw [List.foldl_cons, h]⟩

theorem columnsStep_eq_max (c : Int) (q : QueueDetails) :
    columnsStep c q = max c (RuneCountInString q.QueueURL) := by
  unfold columnsStep
  split <;> omega

theorem foldl_columnsStep_eq_max (queues : QueueListModel) :
    ∀ c : Int, 0 ≤ c → queues.foldl columnsStep c = max c (maxIdentifierLength queues) := by
  induction queues with
  | nil =>
    intro c hc
    simp [maxIdentifierLength, hc]
  | cons q rest ih =>
    intro c hc
    have hc1 : 0 ≤ columnsStep c q := by rw [columnsStep_eq_max]; omega
    rw [List.foldl_cons, ih _ hc1, columnsStep_eq_max]
    simp only [maxIdentifierLength, List.map_cons, List.foldr_cons]
    omega

theorem maxIdentifierLength_nonneg (queues : QueueListModel) : 0 ≤ maxIdentifierLength queues := by
  induction queues with
  | nil => simp [maxIdentifierLength]
  | cons q rest ih =>
    simp only [maxIdentifierLength, List.map_cons, List.foldr_cons] at ih ⊢
    omega

/-- The behaviour of `MoveCursorUp` at a view whose cursor is an `int` other than the
smallest one: the subtraction of the guard does not wrap. -/
theorem moveCursorUp_spec_of_gt (v : QueueListView) (hc : IsInt v.cursorPosition)
    (hmin : minInt < v.cursorPosition) :
    ((MoveCursorUp v).2 ≠ none ↔ v.cursorPosition - 1 ≤ 0) ∧
    ((MoveCursorUp v).2 ≠ none → (MoveCursorUp v).1 = v) ∧
    (v.cursorPosition = 1 → (MoveCursorUp v).2 ≠ none ∧ (MoveCursorUp v).1 = v) ∧
    ((MoveCursorUp v).2 = none →
      (MoveCursorUp v).1.cursorPosition = v.cursorPosition - 1 ∧
      (MoveCursorUp v).1.rows = v.rows ∧
      (MoveCursorUp v).1.columns = v.columns ∧
      (MoveCursorUp v).1.contents = v.contents) := by
  rw [MoveCursorUp_eq_of_gt hc hmin]
  by_cases h : v.cursorPosition - 1 ≤ 0
  · simp only [h, if_true]
    simp
  · simp only [h, if_false]
    simp
    omega

/-- The guard of `MoveCursorUp` is evaluated in `int` arithmetic: at the smallest `int`, a
cursor value no call sequence produces (see `cursorLow_runCalls`), the subtraction wraps. -/
theorem moveCursorUp_wraps_at_minInt :
    (MoveCursorUp minCursorView).2 = none ∧
      (MoveCursorUp minCursorView).1.cursorPosition = maxInt := by
  decide

/-! ## Lemmas: the controller -/

theorem sliceIndex_natCast {α : Type} (xs : List α) (n : Nat) (h : n < xs.length) :
    sliceIndex xs (n : Int) = xs[n]? := by
  unfold sliceIndex
  have h1 : (0 : Int) ≤ (n : Int) ∧ (n : Int) < (xs.length : Int) := by omega
  simp only [h1, and_self, if_true, Int.toNat_ofNat]

theorem moveDownTimes_spec (n : Nat) :
    ∀ (ctrl : QueueListController) (k : Nat), IsInt ctrl.view.rows →
      ctrl.view.cursorPosition = (k : Int) → ((k + n : Nat) : Int) ≤ ctrl.view.rows →
      (moveDownTimes n ctrl).1.queues = ctrl.queues ∧
      (moveDownTimes n ctrl).1.view.cursorPosition = ((k + n : Nat) : Int) ∧
      (moveDownTimes n ctrl).2 = List.replicate n none := by
  induction n with
  | zero => intro ctrl k _ hc _; exact ⟨rfl, by simpa using hc, rfl⟩
  | succ n ih =>
    intro ctrl k hr hc hle
    have hci : IsInt ctrl.view.cursorPosition := by
      unfold IsInt minInt maxInt at *
      omega
    have hlt : ¬ ctrl.view.cursorPosition ≥ ctrl.view.rows := by
      push_cast at hle
      omega
    have hdown : MoveCursorDown ctrl.view =
        (⟨ctrl.view.cursorPosition + 1, ctrl.view.rows, ctrl.view.columns, ctrl.view.contents⟩, none) := by
      rw [MoveCursorDown_eq hci hr, if_neg hlt]
    have hrec := ih ⟨ctrl.queues, (MoveCursorDown ctrl.view).1, ctrl.queueURLs, ctrl.active⟩ (k + 1)
      (by rw [hdown]; exact hr) (by rw [hdown]; simp only; rw [hc]; push_cast; rfl)
      (by rw [hdown]; simp only; have : k + 1 + n = k + (n + 1) := by omega
          rw [this]; exact hle)
    obtain ⟨hq, hcur, herr⟩ := hrec
    refine ⟨?_, ?_, ?_⟩
    · simpa [moveDownTimes] using hq
    · have : k + (n + 1) = k + 1 + n := by omega
      rw [this]
      simpa [moveDownTimes] using hcur
    · rw [hdown] at herr
      simp only [moveDownTimes, List.replicate_succ, herr, hdown]

theorem controllerInv_new {queues : QueueListModel} (queueURLs : List String) (hne : queues ≠ []) :
    ControllerInv queues (NewQueueListController queues queueURLs) := by
  refine ⟨rfl, rfl, le_refl (1 : Int), ?_⟩
  show (1 : Int) ≤ (queues.length : Int)
  have := List.length_pos.2 hne
  omega

theorem controllerInv_selection {queues : QueueListModel} {ctrl : QueueListController}
    (hs : GoSlice queues) (h : ControllerInv queues ctrl) :
    ∃ d, queues[(ctrl.view.cursorPosition - 1).toNat]? = some d ∧ GetCurrentSelection ctrl = some d := by
  obtain ⟨hq, hr, h1, h2⟩ := h
  have hlen := isInt_length hs
  have hw : wrapInt (ctrl.view.cursorPosition - 1) = ctrl.view.cursorPosition - 1 := by
    apply wrapInt_of_isInt
    unfold IsInt minInt maxInt at *
    omega
  have hlt : (ctrl.view.cursorPosition - 1).toNat < queues.length := by omega
  refine ⟨queues[(ctrl.view.cursorPosition - 1).toNat], List.getElem?_eq_getElem hlt, ?_⟩
  unfold GetCurrentSelection sliceIndex
  rw [hw, hq]
  have hb : 0 ≤ ctrl.view.cursorPosition - 1 ∧ ctrl.view.cursorPosition - 1 < (queues.length : Int) := by
    omega
  rw [if_pos hb]
  exact List.getElem?_eq_getElem hlt

theorem controllerInv_edit {queues : QueueListModel} {ctrl : QueueListController}
    (hs : GoSlice queues) (h : ControllerInv queues ctrl) (v : GocuiView) (key : Key) :
    ∃ ctrl1 v1, Edit ctrl v key = .ok (ctrl1, v1) ∧ ControllerInv queues ctrl1 := by
  have hlen := isInt_length hs
  obtain ⟨d, _, hd⟩ := controllerInv_selection hs h
  obtain ⟨hq, hr, h1, h2⟩ := h
  have hci : IsInt ctrl.view.cursorPosition := by
    unfold IsInt minInt maxInt at *
    omega
  have hri : IsInt ctrl.view.rows := by rw [hr]; exact hlen
  cases key with
  | KeyEnter =>
    simp only [Edit, hd]
    exact ⟨_, _, rfl, hq, hr, h1, h2⟩
  | KeyArrowUp =>
    have hmin : minInt < ctrl.view.cursorPosition := by unfold minInt; omega
    simp only [Edit, MoveCursorUp_eq_of_gt hci hmin]
    by_cases hc : ctrl.view.cursorPosition - 1 ≤ 0
    · simp only [hc, if_true]
      exact ⟨_, _, rfl, hq, hr, h1, h2⟩
    · simp only [hc, if_false]
      refine ⟨_, _, rfl, hq, hr, ?_, ?_⟩ <;> simp only <;> omega
  | KeyArrowDown =>
    simp only [Edit, MoveCursorDown_eq hci hri]
    by_cases hc : ctrl.view.cursorPosition ≥ ctrl.view.rows
    · simp only [hc, if_true]
      exact ⟨_, _, rfl, hq, hr, h1, h2⟩
    · simp only [hc, if_false]
      refine ⟨_, _, rfl, hq, hr, ?_, ?_⟩ <;> simp only <;> omega
  | other code => exact ⟨ctrl, v, rfl, hq, hr, h1, h2⟩

theorem controllerInv_editAll {queues : QueueListModel} (hs : GoSlice queues) (keys : List Key) :
    ∀ (ctrl : QueueListController) (v : GocuiView), ControllerInv queues ctrl →
      ∃ ctrl1 v1, editAll ctrl v keys = .ok (ctrl1, v1) ∧ ControllerInv queues ctrl1 := by
  induction keys with
  | nil => intro ctrl v h; exact ⟨ctrl, v, rfl, h⟩
  | cons key rest ih =>
    intro ctrl v h
    obtain ⟨c1, v1, he, h1⟩ := controllerInv_edit hs h v key
    obtain ⟨c2, v2, he2, h2⟩ := ih c1 v1 h1
    refine ⟨c2, v2, ?_, h2⟩
    simp only [editAll, he, he2]

/-! ## Lemmas: the worker pool -/

theorem picks_eq {α : Type} (xs : List α) :
    ∀ p ∈ picks xs, xs = p.1 ++ p.2.1 :: p.2.2 := by
  induction xs with
  | nil => intro p hp; simp [picks] at hp
  | cons x rest ih =>
    intro p hp
    simp only [picks, List.mem_cons, List.mem_map] at hp
    rcases hp with rfl | ⟨q, hq, rfl⟩
    · rfl
    · simp only [List.cons_append]
      rw [← ih q hq]

theorem countOutputs_workerBody_le (client : RemoteClient) (u : String) :
    countOutputs (workerBody client u) ≤ 1 := by
  unfold workerBody getQueueAttributes
  cases client u with
  | error e => simp [countOutputs]
  | ok out =>
    simp only [List.nil_append]
    cases out.Attributes.lookup "ApproximateNumberOfMessages" with
    | none => simp [countOutputs]
    | some v =>
      simp only
      cases Atoi v with
      | error e => simp [countOutputs]
      | ok n => simp [countOutputs]

theorem expectedOutputs_le (cfg : PoolConfig) (urls : List String) :
    expectedOutputs cfg urls ≤ urls.length := by
  induction urls with
  | nil => simp [expectedOutputs]
  | cons u rest ih =>
    have := countOutputs_workerBody_le cfg.client u
    simp only [expectedOutputs, List.map_cons, List.sum_cons, List.length_cons] at ih ⊢
    omega

theorem expectedOutputs_lt (cfg : PoolConfig) (urls : List String) (u : String) (hu : u ∈ urls)
    (h0 : countOutputs (workerBody cfg.client u) = 0) :
    expectedOutputs cfg urls < urls.length := by
  induction urls with
  | nil => simp at hu
  | cons x rest ih =>
    have hle := expectedOutputs_le cfg rest
    have hx := countOutputs_workerBody_le cfg.client x
    simp only [expectedOutputs, List.map_cons, List.sum_cons, List.length_cons] at ih hle ⊢
    rcases List.mem_cons.1 hu with rfl | hmem
    · omega
    · have := ih hmem
      omega

theorem expectedOutputs_append (cfg : PoolConfig) (xs ys : List String) :
    expectedOutputs cfg (xs ++ ys) = expectedOutputs cfg xs + expectedOutputs cfg ys := by
  simp [expectedOutputs, List.map_append, List.sum_append]

theorem expectedOutputs_cons (cfg : PoolConfig) (x : String) (ys : List String) :
    expectedOutputs cfg (x :: ys) = countOutputs (workerBody cfg.client x) + expectedOutputs cfg ys := by
  simp [expectedOutputs]

theorem poolInv_init (cfg : PoolConfig) : PoolInv cfg (poolInit cfg) := by
  unfold PoolInv poolInit potential
  cases h : cfg.listQueues with
  | error e =>
    simp only [List.length_nil, List.map_nil, List.sum_nil, List.nil_append, MainPC.unsent]
    exact ⟨by simp [expectedOutputs], e, rfl⟩
  | ok urls =>
    simp only [List.length_nil, List.map_nil, List.sum_nil, List.nil_append, MainPC.unsent]
    exact ⟨by omega, trivial⟩

theorem poolInv_mainNext (cfg : PoolConfig) (s t : Pool) (h : PoolInv cfg s)
    (ht : t ∈ mainNext cfg s) : PoolInv cfg t := by
  obtain ⟨hp, hk⟩ := h
  unfold mainNext at ht
  unfold PoolInv potential at *
  split at ht
  · simp at ht
  · rename_i i hm
    rw [hm] at hp hk
    split at ht
    · simp only [List.mem_singleton] at ht
      subst ht
      simp only [List.map_append, List.sum_append, List.map_cons, List.map_nil, List.sum_cons,
        List.sum_nil, WorkerPC.pendingOutputs, MainPC.unsent] at hp ⊢
      exact ⟨by omega, hk⟩
    · simp only [List.mem_singleton] at ht
      subst ht
      simp only [MainPC.unsent] at hp ⊢
      exact ⟨hp, hk⟩
  · rename_i u rest hm
    rw [hm] at hp hk
    split at ht
    · simp only [List.mem_singleton] at ht
      subst ht
      simp only [MainPC.unsent, List.append_assoc, List.singleton_append] at hp ⊢
      exact ⟨hp, hk⟩
    · simp at ht
  · rename_i hm
    rw [hm] at hp hk
    simp only [List.mem_singleton] at ht
    subst ht
    simp only [MainPC.unsent] at hp ⊢
    exact ⟨hp, hk⟩
  · rename_i i hm
    rw [hm] at hp hk
    split at ht
    · simp only [List.mem_filterMap] at ht
      obtain ⟨p, hpk, hsome⟩ := ht
      have hw := picks_eq s.workers p hpk
      split at hsome
      · rename_i hsig
        simp only [Option.some.injEq] at hsome
        subst hsome
        rw [hw, hsig] at hp
        simp only [List.map_append, List.sum_append, List.map_cons, List.sum_cons,
          WorkerPC.pendingOutputs, MainPC.unsent] at hp ⊢
        exact ⟨by omega, hk⟩
      · simp at hsome
    · simp only [List.mem_singleton] at ht
      subst ht
      simp only [MainPC.unsent] at hp ⊢
      refine ⟨hp, ?_⟩
      simp [hk]
  · rename_i i hm
    rw [hm] at hp hk
    split at ht
    · split at ht
      · simp at ht
      · rename_i d rest ho
        simp only [List.mem_singleton] at ht
        subst ht
        rw [ho] at hp
        simp only [List.length_append, List.length_cons, List.length_nil, MainPC.unsent] at hp ⊢
        exact ⟨by omega, by omega⟩
    · simp only [List.mem_singleton] at ht
      subst ht
      simp only [MainPC.unsent] at hp ⊢
      exact ⟨hp, by omega⟩
  · simp at ht

theorem poolInv_workerNext (cfg : PoolConfig) (s t : Pool) (pre post : List WorkerPC)
    (w : WorkerPC) (hw : s.workers = pre ++ w :: post) (h : PoolInv cfg s)
    (ht : t ∈ workerNext cfg s pre w post) : PoolInv cfg t := by
  obtain ⟨hp, hk⟩ := h
  unfold PoolInv potential at *
  rw [hw] at hp
  unfold workerNext at ht
  split at ht
  · split at ht
    · rename_i u rest hq
      simp only [List.mem_singleton] at ht
      subst ht
      rw [hq] at hp
      simp only [List.map_append, List.sum_append, List.map_cons, List.sum_cons,
        WorkerPC.pendingOutputs, List.cons_append, expectedOutputs_cons] at hp ⊢
      exact ⟨by omega, hk⟩
    · rename_i hq
      split at ht
      · simp only [List.mem_singleton] at ht
        subst ht
        rw [hq] at hp
        simp only [List.map_append, List.sum_append, List.map_cons, List.sum_cons,
          WorkerPC.pendingOutputs] at hp ⊢
        exact ⟨by omega, hk⟩
      · simp at ht
  · simp only [List.mem_singleton] at ht
    subst ht
    simp only [List.map_append, List.sum_append, List.map_cons, List.sum_cons,
      WorkerPC.pendingOutputs, countOutputs] at hp ⊢
    exact ⟨by omega, hk⟩
  · simp at ht
  · split at ht
    · simp only [List.mem_singleton] at ht
      subst ht
      simp only [List.map_append, List.sum_append, List.map_cons, List.sum_cons,
        WorkerPC.pendingOutputs, countOutputs, List.length_append, List.length_cons,
        List.length_nil] at hp ⊢
      exact ⟨by omega, hk⟩
    · simp at ht
  · simp only [List.mem_singleton] at ht
    subst ht
    exact ⟨hp, hk⟩
  · simp at ht
  · simp at ht

theorem poolInv_poolNext (cfg : PoolConfig) (s t : Pool) (h : PoolInv cfg s)
    (ht : t ∈ poolNext cfg s) : PoolInv cfg t := by
  unfold poolNext at ht
  split at ht
  · simp at ht
  · rcases List.mem_append.1 ht with hm | hwk
    · exact poolInv_mainNext cfg s t h hm
    · obtain ⟨p, hp, htp⟩ := List.mem_flatMap.1 hwk
      exact poolInv_workerNext cfg s t p.1 p.2.2 p.2.1 (picks_eq _ p hp) h htp

theorem poolInv_reachable (cfg : PoolConfig) (s : Pool) (h : PoolReachable cfg s) :
    PoolInv cfg s := by
  induction h with
  | init => exact poolInv_init cfg
  | step _ ht ih => exact poolInv_poolNext cfg _ _ ih ht

theorem runFirst_reachable (cfg : PoolConfig) (fuel : Nat) :
    ∀ s : Pool, PoolReachable cfg s → PoolReachable cfg (runFirst cfg fuel s) := by
  induction fuel with
  | zero => intro s h; exact h
  | succ n ih =>
    intro s h
    unfold runFirst
    split
    · exact h
    · rename_i t rest hn
      exact ih t (PoolReachable.step h (by rw [hn]; exact List.mem_cons_self _ _))

/-- A failed or incomplete fetch of one identifier keeps the call from ever returning. -/
theorem never_returns_of_missing_output (cfg : PoolConfig) (urls : List String) (u : String)
    (hl : cfg.listQueues = .ok urls) (hu : u ∈ urls)
    (h0 : countOutputs (workerBody cfg.client u) = 0) (s : Pool) (hs : PoolReachable cfg s) :
    s.hasReturned = false := by
  obtain ⟨hp, hk⟩ := poolInv_reachable cfg s hs
  have hurls : cfg.QueueUrls = urls := by simp [PoolConfig.QueueUrls, hl]
  have hlt := expectedOutputs_lt cfg urls u hu h0
  unfold potential at hp
  unfold Pool.hasReturned
  split
  · rename_i hm
    rw [hm] at hk
    simp only [PoolConfig.numQueues, hurls] at hk
    rw [hurls] at hp
    omega
  · rename_i e hm
    rw [hm] at hk
    obtain ⟨err, herr⟩ := hk
    rw [hl] at herr
    cases herr
  · rfl

/-- The model lets a call return when there is nothing to block it: with two workers and two
successful fetches, the schedule that always runs the first ready goroutine ends in the
returned state with both results collected. -/
theorem allSuccess_run_returns :
    runFirst allSuccessConfig 30 (poolInit allSuccessConfig) =
      ⟨.returned, [], true, [], [.exited, .exited], [⟨"a", 3⟩, ⟨"c", 3⟩], false⟩ := by
  decide

/-! ## Lemmas: the worker -/

theorem workerBody_of_call_error {client : RemoteClient} {u : String} {err : GoError}
    (h : client u = .error err) :
    workerBody client u = [WorkerAction.sendErr err, WorkerAction.nilDeref] := by
  simp [workerBody, getQueueAttributes, h]

theorem workerBody_of_missing {client : RemoteClient} {u : String} {out : GetQueueAttributesOutput}
    (h : client u = .ok out) (hm : out.Attributes.lookup "ApproximateNumberOfMessages" = none) :
    workerBody client u = [WorkerAction.sendErr "ApproximateNumberOfMessages"] := by
  simp [workerBody, getQueueAttributes, h, hm]

theorem workerBody_of_unparsable {client : RemoteClient} {u v : String}
    {out : GetQueueAttributesOutput} {err : GoError} (h : client u = .ok out)
    (hm : out.Attributes.lookup "ApproximateNumberOfMessages" = some v) (hp : Atoi v = .error err) :
    workerBody client u = [WorkerAction.sendErr err] := by
  simp [workerBody, getQueueAttributes, h, hm, hp]

theorem workerBody_of_success {client : RemoteClient} {u v : String}
    {out : GetQueueAttributesOutput} {n : Int} (h : client u = .ok out)
    (hm : out.Attributes.lookup "ApproximateNumberOfMessages" = some v) (hp : Atoi v = .ok n) :
    workerBody client u = [WorkerAction.sendOutput ⟨u, n⟩] := by
  simp [workerBody, getQueueAttributes, h, hm, hp]

/-- On a receptive environment the worker handles a successful fetch, a missing attribute and
an unparsable attribute with exactly one event each and then goes on. -/
theorem QueueAttributesWorker_continues (client : RemoteClient) (u : String) (rest : List String)
    (out : GetQueueAttributesOutput) (h : client u = .ok out) :
    (out.Attributes.lookup "ApproximateNumberOfMessages" = none →
      QueueAttributesWorker client (u :: rest) =
        WorkerEvent.err "ApproximateNumberOfMessages" :: QueueAttributesWorker client rest) ∧
    (∀ v err, out.Attributes.lookup "ApproximateNumberOfMessages" = some v → Atoi v = .error err →
      QueueAttributesWorker client (u :: rest) =
        WorkerEvent.err err :: QueueAttributesWorker client rest) ∧
    (∀ v n, out.Attributes.lookup "ApproximateNumberOfMessages" = some v → Atoi v = .ok n →
      QueueAttributesWorker client (u :: rest) =
        WorkerEvent.output ⟨u, n⟩ :: QueueAttributesWorker client rest) := by
  refine ⟨?_, ?_, ?_⟩
  · intro hm
    simp [QueueAttributesWorker, workerBody_of_missing h hm, performBody]
  · intro v err hm hp
    simp [QueueAttributesWorker, workerBody_of_unparsable h hm hp, performBody]
  · intro v n hm hp
    simp [QueueAttributesWorker, workerBody_of_success h hm hp, performBody]

/-! ## Lemmas: the pool without workers -/

theorem idle_reachable (cfg : PoolConfig) (hw : cfg.maxWorkers = 0) (s : Pool)
    (hs : PoolReachable cfg s) : s.Idle := by
  induction hs with
  | init =>
    unfold poolInit Pool.Idle
    cases cfg.listQueues <;> exact ⟨rfl, rfl, rfl⟩
  | step _ ht ih =>
    rename_i s t
    obtain ⟨h1, h2, h3⟩ := ih
    unfold poolNext at ht
    split at ht
    · simp at ht
    · rw [h1] at ht
      simp only [picks, List.flatMap_nil, List.append_nil] at ht
      unfold mainNext at ht
      unfold Pool.Idle
      split at ht
      · simp at ht
      · rw [hw] at ht
        split at ht
        · rename_i hlt
          omega
        · simp only [List.mem_singleton] at ht
          subst ht
          exact ⟨h1, h2, h3⟩
      · split at ht
        · simp only [List.mem_singleton] at ht
          subst ht
          exact ⟨h1, h2, h3⟩
        · simp at ht
      · simp only [List.mem_singleton] at ht
        subst ht
        exact ⟨h1, h2, h3⟩
      · rw [hw] at ht
        split at ht
        · rename_i hlt
          omega
        · simp only [List.mem_singleton] at ht
          subst ht
          exact ⟨h1, h2, h3⟩
      · rw [h2] at ht
        split at ht
        · simp at ht
        · simp only [List.mem_singleton] at ht
          subst ht
          exact ⟨h1, rfl, h3⟩
      · simp at ht

theorem feed_reachable (cfg : PoolConfig) (urls : List String) (hl : cfg.listQueues = .ok urls)
    (rest : List String) :
    ∀ sent : List String, sent ++ rest = urls →
      PoolReachable cfg ⟨.feed rest, sent, false, [], [], [], false⟩ →
      PoolReachable cfg ⟨.feed [], urls, false, [], [], [], false⟩ := by
  induction rest with
  | nil =>
    intro sent hsent h
    rw [List.append_nil] at hsent
    rw [← hsent]
    exact h
  | cons u rest ih =>
    intro sent hsent h
    refine ih (sent ++ [u]) (by rw [← hsent]; simp) (PoolReachable.step h ?_)
    have hlen : sent.length < cfg.numQueues := by
      simp only [PoolConfig.numQueues, PoolConfig.QueueUrls, hl, ← hsent, List.length_append,
        List.length_cons]
      omega
    simp [poolNext, mainNext, hlen]

/-! ## The claims -/

/-- Claim C1, counterexample: after `UpdateQueues` with three queues, two `MoveCursorDown`
calls and `UpdateQueues` with one queue, `rows` is 1 and positive while the cursor is still
3, so `1 <= cursorPosition <= rows` fails in a reachable state. -/
theorem shrinking_update_breaks_cursor_bound :
    callsWellTyped shrinkingCalls ∧
      (runCalls NewQueueListView shrinkingCalls).rows > 0 ∧
      ¬ (1 ≤ (runCalls NewQueueListView shrinkingCalls).cursorPosition ∧
          (runCalls NewQueueListView shrinkingCalls).cursorPosition ≤
            (runCalls NewQueueListView shrinkingCalls).rows) := by
  refine ⟨?_, by decide, by decide⟩
  simp only [shrinkingCalls, callsWellTyped, and_true]
  exact ⟨by decide, by decide⟩

/-- Claim C1, amended: in every state reached from `NewQueueListView` by a finite sequence
of `UpdateQueues`, `MoveCursorUp` and `MoveCursorDown` calls the cursor is at least 1; and
if every `UpdateQueues` of the sequence received a model that was empty or had at least as
many entries as the cursor position at the time of that call, then whenever `rows > 0` the
cursor is at most `rows`. -/
theorem cursor_invariant_guarded (calls : List ViewCall) (hw : callsWellTyped calls) :
    1 ≤ (runCalls NewQueueListView calls).cursorPosition ∧
    (updatesCoverCursor NewQueueListView calls →
      (runCalls NewQueueListView calls).rows > 0 →
        (runCalls NewQueueListView calls).cursorPosition ≤ (runCalls NewQueueListView calls).rows) := by
  refine ⟨(cursorLow_runCalls calls _ cursorLow_new hw).2.2, ?_⟩
  intro hcov
  refine cursorHigh_runCalls calls _ cursorLow_new ?_ hw hcov
  intro h
  exact absurd h (by decide)

/-- Claim C1, witness: a sequence that moves the cursor back to row 1 before the model
shrinks to one row satisfies the side condition and ends with `1 <= cursorPosition <= rows`. -/
theorem cursor_invariant_guarded_witness :
    callsWellTyped coveringCalls ∧ updatesCoverCursor NewQueueListView coveringCalls ∧
      (runCalls NewQueueListView coveringCalls).rows > 0 ∧
      1 ≤ (runCalls NewQueueListView coveringCalls).cursorPosition ∧
      (runCalls NewQueueListView coveringCalls).cursorPosition ≤
        (runCalls NewQueueListView coveringCalls).rows := by
  have hw : callsWellTyped coveringCalls := by
    simp only [coveringCalls, callsWellTyped, and_true]
    exact ⟨by decide, by decide⟩
  have hcov : updatesCoverCursor NewQueueListView coveringCalls := by
    simp only [coveringCalls, updatesCoverCursor, and_true]
    exact ⟨by decide, by decide⟩
  have h := cursor_invariant_guarded coveringCalls hw
  exact ⟨hw, hcov, by decide, h.1, h.2 hcov (by decide)⟩

/-- Claim C2: for every view state, `MoveCursorUp` returns an error if and only if
`cursorPosition - 1 <= 0`; when it errors (in particular at `cursorPosition = 1`) the view is
unchanged, and when it succeeds the cursor has decreased by exactly 1 while `rows`, `columns`
and `contents` are unchanged. Proved for every state reached from `NewQueueListView` by a
finite sequence of `UpdateQueues`, `MoveCursorUp` and `MoveCursorDown` calls, and beyond
those for every view with `int` fields whose cursor is not the smallest `int` (so also for
the zero-value view and for non-positive cursors). -/
theorem MoveCursorUp_contract :
    (∀ calls : List ViewCall, callsWellTyped calls →
      ((MoveCursorUp (runCalls NewQueueListView calls)).2 ≠ none ↔
        (runCalls NewQueueListView calls).cursorPosition - 1 ≤ 0) ∧
      ((MoveCursorUp (runCalls NewQueueListView calls)).2 ≠ none →
        (MoveCursorUp (runCalls NewQueueListView calls)).1 = runCalls NewQueueListView calls) ∧
      ((runCalls NewQueueListView calls).cursorPosition = 1 →
        (MoveCursorUp (runCalls NewQueueListView calls)).2 ≠ none ∧
        (MoveCursorUp (runCalls NewQueueListView calls)).1 = runCalls NewQueueListView calls) ∧
      ((MoveCursorUp (runCalls NewQueueListView calls)).2 = none →
        (MoveCursorUp (runCalls NewQueueListView calls)).1.cursorPosition =
          (runCalls NewQueueListView calls).cursorPosition - 1 ∧
        (MoveCursorUp (runCalls NewQueueListView calls)).1.rows =
          (runCalls NewQueueListView calls).rows ∧
        (MoveCursorUp (runCalls NewQueueListView calls)).1.columns =
          (runCalls NewQueueListView calls).columns ∧
        (MoveCursorUp (runCalls NewQueueListView calls)).1.contents =
          (runCalls NewQueueListView calls).contents)) ∧
    (∀ v : QueueListView, v.WellTyped → minInt < v.cursorPosition →
      ((MoveCursorUp v).2 ≠ none ↔ v.cursorPosition - 1 ≤ 0) ∧
      ((MoveCursorUp v).2 ≠ none → (MoveCursorUp v).1 = v) ∧
      (v.cursorPosition = 1 → (MoveCursorUp v).2 ≠ none ∧ (MoveCursorUp v).1 = v) ∧
      ((MoveCursorUp v).2 = none →
        (MoveCursorUp v).1.cursorPosition = v.cursorPosition - 1 ∧
        (MoveCursorUp v).1.rows = v.rows ∧
        (MoveCursorUp v).1.columns = v.columns ∧
        (MoveCursorUp v).1.contents = v.contents)) := by
  refine ⟨?_, ?_⟩
  · intro calls hw
    obtain ⟨hc, _, h1⟩ := cursorLow_runCalls calls _ cursorLow_new hw
    exact moveCursorUp_spec_of_gt _ hc (by unfold minInt; omega)
  · intro v hv hmin
    exact moveCursorUp_spec_of_gt v hv.1 hmin

/-- Claim C2, witness: after a call sequence that ends with the cursor on row 1 the call
errors and returns the same view; from cursor 2 of 3 rows it succeeds and leaves the cursor
at 1. -/
theorem MoveCursorUp_contract_witness :
    (runCalls NewQueueListView coveringCalls).cursorPosition = 1 ∧
    (MoveCursorUp (runCalls NewQueueListView coveringCalls)).2 ≠ none ∧
    (MoveCursorUp (runCalls NewQueueListView coveringCalls)).1 =
      runCalls NewQueueListView coveringCalls ∧
    ((MoveCursorUp ⟨2, 3, 12, "abc"⟩).2 ≠ none ↔ (2 : Int) - 1 ≤ 0) ∧
    (MoveCursorUp ⟨2, 3, 12, "abc"⟩).1.cursorPosition = 1 := by
  have hw : callsWellTyped coveringCalls := by
    simp only [coveringCalls, callsWellTyped, and_true]
    exact ⟨by decide, by decide⟩
  have hr := MoveCursorUp_contract.1 coveringCalls hw
  have h := MoveCursorUp_contract.2 ⟨2, 3, 12, "abc"⟩ (by decide) (by decide)
  have hone : (runCalls NewQueueListView coveringCalls).cursorPosition = 1 := by decide
  exact ⟨hone, (hr.2.2.1 hone).1, (hr.2.2.1 hone).2, h.1, (h.2.2.2 (by decide)).1⟩

/-- Claim C3: for every well-typed view, `MoveCursorDown` returns an error if and only if
`cursorPosition >= rows`; when it errors (in particular at `cursorPosition = rows`) the view
is unchanged, and when it succeeds the cursor has increased by exactly 1 while `rows`,
`columns` and `contents` are unchanged. -/
theorem MoveCursorDown_contract (v : QueueListView) (hv : v.WellTyped) :
    ((MoveCursorDown v).2 ≠ none ↔ v.cursorPosition ≥ v.rows) ∧
    ((MoveCursorDown v).2 ≠ none → (MoveCursorDown v).1 = v) ∧
    (v.cursorPosition = v.rows → (MoveCursorDown v).2 ≠ none ∧ (MoveCursorDown v).1 = v) ∧
    ((MoveCursorDown v).2 = none →
      (MoveCursorDown v).1.cursorPosition = v.cursorPosition + 1 ∧
      (MoveCursorDown v).1.rows = v.rows ∧
      (MoveCursorDown v).1.columns = v.columns ∧
      (MoveCursorDown v).1.contents = v.contents) := by
  rw [MoveCursorDown_eq hv.1 hv.2.1]
  by_cases h : v.cursorPosition ≥ v.rows
  · simp only [h, if_true]
    simp
  · simp only [h, if_false]
    simp
    omega

/-- Claim C3, witness: at cursor 3 of 3 rows the call errors and returns the same view; at
cursor 2 of 3 rows it succeeds and the cursor becomes 3. -/
theorem MoveCursorDown_contract_witness :
    ((MoveCursorDown ⟨3, 3, 12, "abc"⟩).2 ≠ none ∧
      MoveCursorDown ⟨3, 3, 12, "abc"⟩ = (⟨3, 3, 12, "abc"⟩, some "invalid position")) ∧
    (MoveCursorDown ⟨2, 3, 12, "abc"⟩).1.cursorPosition = 2 + 1 := by
  have h3 := MoveCursorDown_contract ⟨3, 3, 12, "abc"⟩ (by decide)
  have h2 := MoveCursorDown_contract ⟨2, 3, 12, "abc"⟩ (by decide)
  exact ⟨⟨(h3.2.2.1 rfl).1, by decide⟩, (h2.2.2.2 (by decide)).1⟩

/-- Claim C4: for every model and every prior view, after `UpdateQueues` the field `rows` is
the number of entries and `columns` is the maximum identifier length (rune count) over the
entries: it is at least every identifier's length and, for a non-empty model, it is the
length of some identifier. For the empty model both are 0; for three identifiers of lengths
5, 12 and 3 `columns` is 12. `rows`, `columns` and `contents` do not depend on the prior
view, and the cursor is the prior cursor. -/
theorem UpdateQueues_rows_columns (v : QueueListView) (queues : QueueListModel) :
    (UpdateQueues v queues).rows = (queues.length : Int) ∧
    (UpdateQueues v queues).columns = maxIdentifierLength queues ∧
    (∀ q ∈ queues, RuneCountInString q.QueueURL ≤ (UpdateQueues v queues).columns) ∧
    (queues ≠ [] → ∃ q ∈ queues, (UpdateQueues v queues).columns = RuneCountInString q.QueueURL) ∧
    (queues = [] → (UpdateQueues v queues).rows = 0 ∧ (UpdateQueues v queues).columns = 0) ∧
    (∀ a b c : QueueDetails, queues = [a, b, c] → RuneCountInString a.QueueURL = 5 →
      RuneCountInString b.QueueURL = 12 → RuneCountInString c.QueueURL = 3 →
        (UpdateQueues v queues).columns = 12) ∧
    (∀ v0 : QueueListView, (UpdateQueues v0 queues).rows = (UpdateQueues v queues).rows ∧
      (UpdateQueues v0 queues).columns = (UpdateQueues v queues).columns ∧
      (UpdateQueues v0 queues).contents = (UpdateQueues v queues).contents) ∧
    (UpdateQueues v queues).cursorPosition = v.cursorPosition := by
  have hmax : queues.foldl columnsStep 0 = maxIdentifierLength queues := by
    rw [foldl_columnsStep_eq_max queues 0 (le_refl 0)]
    exact max_eq_right (maxIdentifierLength_nonneg queues)
  refine ⟨rfl, hmax, (foldl_columnsStep_ge queues 0).2, ?_, ?_, ?_, fun _ => ⟨rfl, rfl, rfl⟩, rfl⟩
  · intro hne
    rcases foldl_columnsStep_attained queues 0 with h0 | h
    · cases queues with
      | nil => exact absurd rfl hne
      | cons q rest =>
        refine ⟨q, List.mem_cons_self _ _, ?_⟩
        have hge := (foldl_columnsStep_ge (q :: rest) 0).2 q (List.mem_cons_self _ _)
        have hnn : 0 ≤ RuneCountInString q.QueueURL := by unfold RuneCountInString; omega
        show List.foldl columnsStep 0 (q :: rest) = _
        omega
    · exact h
  · intro hnil
    subst hnil
    exact ⟨rfl, rfl⟩
  · intro a b c hq ha hb hc
    subst hq
    simp only [UpdateQueues, List.foldl_cons, List.foldl_nil, columnsStep, ha, hb, hc]
    decide

/-- Claim C4, witness: on the sample model of identifier lengths 5, 12, 3 the result has 3
rows and 12 columns, whatever the prior view; on the empty model `columns` is 0. -/
theorem UpdateQueues_rows_columns_witness :
    (UpdateQueues minCursorView sampleModel).rows = 3 ∧
    (UpdateQueues minCursorView sampleModel).columns = 12 ∧
    (UpdateQueues minCursorView []).columns = 0 := by
  have h := UpdateQueues_rows_columns minCursorView sampleModel
  have h0 := UpdateQueues_rows_columns minCursorView []
  exact ⟨h.1, h.2.2.2.2.2.1 _ _ _ rfl (by decide) (by decide) (by decide), (h0.2.2.2.2.1 rfl).2⟩

/-- Claim C5: for every model and every `N` below its number of entries, on a controller
freshly built by `NewQueueListController`, `N` consecutive `MoveCursorDown` calls all return
no error and `GetCurrentSelection` then returns the entry of the model at index `N`. -/
theorem selection_after_moves_down (queues : QueueListModel) (queueURLs : List String) (N : Nat)
    (hs : GoSlice queues) (hN : N < queues.length) :
    (moveDownTimes N (NewQueueListController queues queueURLs)).2 = List.replicate N none ∧
    ∃ q, queues[N]? = some q ∧
      GetCurrentSelection (moveDownTimes N (NewQueueListController queues queueURLs)).1 = some q := by
  have h := moveDownTimes_spec N (NewQueueListController queues queueURLs) 1
    (isInt_length hs) rfl
    (by show ((1 + N : Nat) : Int) ≤ (queues.length : Int); omega)
  obtain ⟨hq, hcur, herr⟩ := h
  refine ⟨herr, queues[N], List.getElem?_eq_getElem hN, ?_⟩
  unfold GetCurrentSelection
  rw [hq, hcur]
  have hw : wrapInt (((1 + N : Nat) : Int) - 1) = (N : Int) := by
    have : (((1 + N : Nat) : Int) - 1) = (N : Int) := by push_cast; omega
    rw [this]
    apply wrapInt_of_isInt
    have := isInt_length hs
    unfold IsInt minInt maxInt at *
    omega
  rw [hw]
  show sliceIndex queues (N : Int) = some queues[N]
  rw [sliceIndex_natCast queues N hN]
  exact List.getElem?_eq_getElem hN

/-- Claim C5, witness: two moves down on the three-entry sample model select its third
entry. -/
theorem selection_after_moves_down_witness :
    (moveDownTimes 2 (NewQueueListController sampleModel [])).2 = [none, none] ∧
    ∃ q, sampleModel[2]? = some q ∧
      GetCurrentSelection (moveDownTimes 2 (NewQueueListController sampleModel [])).1 = some q :=
  selection_after_moves_down sampleModel [] 2 (by decide) (by decide)

/-- Claim C6, failing input: with `maxWorkers = 0` and at least one queue identifier, no
state reachable during `GetQueueDetails` is a returned one (neither with a model nor with an
error); the call reaches the fourth loop with an empty `outputs` channel and no worker, and
that state has no successor. -/
theorem zero_workers_never_returns (cfg : PoolConfig) (urls : List String)
    (hl : cfg.listQueues = .ok urls) (hne : urls ≠ []) (hw : cfg.maxWorkers = 0) :
    (∀ s, PoolReachable cfg s → s.hasReturned = false) ∧
    PoolReachable cfg (zeroWorkersStuck urls) ∧
    poolNext cfg (zeroWorkersStuck urls) = [] := by
  have hurls : cfg.QueueUrls = urls := by simp [PoolConfig.QueueUrls, hl]
  have hpos : 0 < urls.length := List.length_pos.2 hne
  refine ⟨?_, ?_, ?_⟩
  · intro s hs
    obtain ⟨_, _, hd⟩ := idle_reachable cfg hw s hs
    obtain ⟨_, hk⟩ := poolInv_reachable cfg s hs
    unfold Pool.hasReturned
    split
    · rename_i hm
      rw [hm] at hk
      simp only [PoolConfig.numQueues, hurls, hd, List.length_nil] at hk
      omega
    · rename_i e hm
      rw [hm] at hk
      obtain ⟨err, herr⟩ := hk
      rw [hl] at herr
      cases herr
    · rfl
  · have h0 : PoolReachable cfg ⟨.spawn 0, [], false, [], [], [], false⟩ := by
      have := @PoolReachable.init cfg
      simpa [poolInit, hl] using this
    have h1 : PoolReachable cfg ⟨.feed urls, [], false, [], [], [], false⟩ := by
      refine PoolReachable.step h0 ?_
      simp [poolNext, mainNext, hw, hurls]
    have h2 := feed_reachable cfg urls hl urls [] rfl h1
    have h3 : PoolReachable cfg ⟨.await 0, urls, true, [], [], [], false⟩ := by
      refine PoolReachable.step h2 ?_
      simp [poolNext, mainNext]
    refine PoolReachable.step h3 ?_
    simp [poolNext, mainNext, hw, zeroWorkersStuck]
  · simp [poolNext, mainNext, zeroWorkersStuck, picks, PoolConfig.numQueues, hurls, hpos]

/-- Claim C6, witness: the property at two queue identifiers and `maxWorkers = 0`. -/
theorem zero_workers_never_returns_witness :
    (∀ s, PoolReachable zeroWorkersConfig s → s.hasReturned = false) ∧
    PoolReachable zeroWorkersConfig (zeroWorkersStuck ["a", "c"]) ∧
    poolNext zeroWorkersConfig (zeroWorkersStuck ["a", "c"]) = [] :=
  zero_workers_never_returns zeroWorkersConfig ["a", "c"] rfl (by decide) rfl

/-- Claim C7, failing input: when the remote call for an identifier fails, the loop body
sends the error and then evaluates `output.Attributes` on the nil `output`; even with every
channel served, the worker's trace is that one error followed by a panic, and the remaining
identifiers are never processed. -/
theorem worker_panics_after_call_error (client : RemoteClient) (u : String) (rest : List String)
    (err : GoError) (h : client u = .error err) :
    workerBody client u = [WorkerAction.sendErr err, WorkerAction.nilDeref] ∧
    QueueAttributesWorker client (u :: rest) = [WorkerEvent.err err, WorkerEvent.panic] := by
  refine ⟨workerBody_of_call_error h, ?_⟩
  simp [QueueAttributesWorker, workerBody_of_call_error h, performBody]

/-- Claim C7, witness: with the remote call failing for queue `a`, the worker given `a` and
`b` reports the error for `a`, panics, and never reaches `b`. -/
theorem worker_panics_after_call_error_witness :
    workerBody failingCallClient "a" =
      [WorkerAction.sendErr "RequestError: send request failed", WorkerAction.nilDeref] ∧
    QueueAttributesWorker failingCallClient ["a", "b"] =
      [WorkerEvent.err "RequestError: send request failed", WorkerEvent.panic] :=
  worker_panics_after_call_error failingCallClient "a" ["b"] _ rfl

/-- Claim C8, failing input: if the response for one of the listed identifiers omits
`ApproximateNumberOfMessages`, then for every `maxWorkers` and under every schedule no state
reachable during `GetQueueDetails` is a returned one. -/
theorem missing_attribute_never_returns (cfg : PoolConfig) (urls : List String) (u : String)
    (out : GetQueueAttributesOutput) (hl : cfg.listQueues = .ok urls) (hu : u ∈ urls)
    (hresp : cfg.client u = .ok out)
    (hmiss : out.Attributes.lookup "ApproximateNumberOfMessages" = none)
    (s : Pool) (hs : PoolReachable cfg s) : s.hasReturned = false := by
  refine never_returns_of_missing_output cfg urls u hl hu ?_ s hs
  rw [workerBody_of_missing hresp hmiss]
  rfl

/-- Claim C8, witness: with two queues, two workers and queue `b` answering without the
attribute, a reachable state has the main goroutine waiting for a completion signal, one
worker waiting at `errs <- err`, and no successor at all; the call has not returned. -/
theorem missing_attribute_never_returns_witness :
    PoolReachable missingAttributeConfig missingAttributeStuck ∧
    poolNext missingAttributeConfig missingAttributeStuck = [] ∧
    missingAttributeStuck.hasReturned = false := by
  have hr : PoolReachable missingAttributeConfig missingAttributeStuck := by
    have h := runFirst_reachable missingAttributeConfig 30 _ (@PoolReachable.init missingAttributeConfig)
    have he : runFirst missingAttributeConfig 30 (poolInit missingAttributeConfig) =
        missingAttributeStuck := by decide
    rw [he] at h
    exact h
  exact ⟨hr, by decide,
    missing_attribute_never_returns missingAttributeConfig ["a", "b"] "b" ⟨[("VisibilityTimeout", "30")]⟩
      rfl (by decide) rfl (by decide) _ hr⟩

/-- Claim C9, failing input: on a controller built from the empty model `rows` is 0, the
index expression of `GetCurrentSelection` is out of range, and `Edit` with the Enter key
panics instead of being guarded. -/
theorem enter_on_empty_model_panics (queueURLs : List String) (v : GocuiView) :
    (NewQueueListController [] queueURLs).view.rows = 0 ∧
    GetCurrentSelection (NewQueueListController [] queueURLs) = none ∧
    Edit (NewQueueListController [] queueURLs) v Key.KeyEnter = .error "index out of range" := by
  refine ⟨rfl, ?_, ?_⟩
  · rfl
  · rfl

/-- Claim C10: for every controller built by `NewQueueListController` from a non-empty model
and every finite sequence of keys handled by `Edit`, no key panics, the model is unchanged,
the index `cursorPosition - 1` lies within the model's bounds, `GetCurrentSelection` returns
the entry at that index, and a further Enter key sends that entry's identifier on the
channel (the send is taken to be accepted). -/
theorem selection_index_in_bounds (queues : QueueListModel) (queueURLs : List String)
    (v : GocuiView) (keys : List Key) (hs : GoSlice queues) (hne : queues ≠ []) :
    ∃ ctrl1 v1, editAll (NewQueueListController queues queueURLs) v keys = .ok (ctrl1, v1) ∧
      ctrl1.queues = queues ∧
      0 ≤ ctrl1.view.cursorPosition - 1 ∧ ctrl1.view.cursorPosition - 1 < (queues.length : Int) ∧
      ∃ d, queues[(ctrl1.view.cursorPosition - 1).toNat]? = some d ∧
        GetCurrentSelection ctrl1 = some d ∧
        Edit ctrl1 v1 Key.KeyEnter =
          .ok (⟨queues, ctrl1.view, ctrl1.queueURLs ++ [d.QueueURL], ctrl1.active⟩, v1) := by
  obtain ⟨c1, v1, he, hinv⟩ :=
    controllerInv_editAll hs keys _ v (controllerInv_new queueURLs hne)
  obtain ⟨d, hd, hsel⟩ := controllerInv_selection hs hinv
  obtain ⟨hq, hr, h1, h2⟩ := hinv
  refine ⟨c1, v1, he, hq, by omega, by omega, d, hd, hsel, ?_⟩
  simp only [Edit, hsel, hq]

/-- Claim C10, witness: the property at the sample model and the key sequence down, down,
down, enter, up, some other key. -/
theorem selection_index_in_bounds_witness :
    ∃ ctrl1 v1,
      editAll (NewQueueListController sampleModel []) ⟨[]⟩
        [Key.KeyArrowDown, Key.KeyArrowDown, Key.KeyArrowDown, Key.KeyEnter, Key.KeyArrowUp,
          Key.other 7] = .ok (ctrl1, v1) ∧
      ctrl1.queues = sampleModel ∧
      0 ≤ ctrl1.view.cursorPosition - 1 ∧ ctrl1.view.cursorPosition - 1 < (sampleModel.length : Int) ∧
      ∃ d, sampleModel[(ctrl1.view.cursorPosition - 1).toNat]? = some d ∧
        GetCurrentSelection ctrl1 = some d ∧
        Edit ctrl1 v1 Key.KeyEnter =
          .ok (⟨sampleModel, ctrl1.view, ctrl1.queueURLs ++ [d.QueueURL], ctrl1.active⟩, v1) :=
  selection_index_in_bounds sampleModel [] ⟨[]⟩ _ (by decide) (by decide)

end Sqsjanitor
